import Mathlib

/-!
Verification development for the text-preprocessing module of the repository
(`src/preprocessing/preprocessing.py`).

The module declares eight public functions (`ocr_correction`,
`normalize_unicode`, `lowercase`, `split_sentences`, `handle_broken_words`,
`normalize_whitespace`, `normalize_quotes_and_accents`,
`preprocess_pipeline`).  In the repository every one of these bodies is an
unimplemented stub that raises `NotImplementedError`; the stubs are embedded
literally in the `Stub` namespace below.  The behaviour the specification
ascribes to the functions is therefore modelled from the specification text
(its contracts in §4 and the docstrings of the stubs), and the behavioural
claims are settled against those models.  Python strings are embedded as
Lean `String`s (sequences of Unicode code points); fallible functions return
`Except PrepError _`.
-/

/-- Error taxonomy of the specification (§7) together with Python's
`NotImplementedError`, which is what every stub body in the repository
raises. -/
inductive PrepError where
  | invalidFormError
  | unsupportedMethodError
  | invalidOptionError
  | capabilityUnavailableError
  | notImplementedError (msg : String)
  deriving Repr, DecidableEq

/-! ### Character-level infrastructure

The model works over Italian-oriented text, as the specification's examples
do.  Character classes (upper/lower case letters including the accented
Italian vowels, combining marks, punctuation) are given by explicit finite
tables so that every fact about them is decidable. -/

/-- Boolean list membership, used instead of `List.contains` so that all
facts about it are proved from one small lemma. -/
def memB {α : Type} [BEq α] (a : α) : List α → Bool
  | [] => false
  | b :: rest => a == b || memB a rest

/-- Combining grave accent (U+0300). -/
def comGrave : Char := '̀'

/-- Combining acute accent (U+0301). -/
def comAcute : Char := '́'

/-- The combining marks known to the model. -/
def isMark (c : Char) : Bool := c == comGrave || c == comAcute

def upperBase : List Char :=
  ['A','B','C','D','E','F','G','H','I','J','K','L','M',
   'N','O','P','Q','R','S','T','U','V','W','X','Y','Z']

def upperAccented : List Char := ['À','È','É','Ì','Ò','Ù']

def lowerBase : List Char :=
  ['a','b','c','d','e','f','g','h','i','j','k','l','m',
   'n','o','p','q','r','s','t','u','v','w','x','y','z']

def lowerAccented : List Char := ['à','è','é','ì','ò','ù']

def isUpperChar (c : Char) : Bool := memB c (upperBase ++ upperAccented)

def isLowerChar (c : Char) : Bool := memB c (lowerBase ++ lowerAccented)

def isLetterChar (c : Char) : Bool := isUpperChar c || isLowerChar c

def isHSpace (c : Char) : Bool := c == ' ' || c == '\t'

def isNL (c : Char) : Bool := c == '\n'

def isWS (c : Char) : Bool := isHSpace c || c == '\n' || c == '\r'

def punctList : List Char :=
  ['.', ',', ';', ':', '!', '?', '-', '"', '\'', '(', ')', '[', ']',
   '«', '»', '…', '“', '”', '‘', '’', '„', '‚']

/-! ### Unicode normalization model

`unicodedata.normalize` is modelled by canonical decomposition/composition
tables covering the precomposed accented vowels of Italian, plus a
compatibility decomposition (the `ﬁ` ligature) for the NFK forms. -/

/-- Canonical decomposition table: precomposed character, base letter,
combining mark. -/
def decompTable : List (Char × Char × Char) :=
  [('à', 'a', comGrave), ('è', 'e', comGrave), ('é', 'e', comAcute),
   ('ì', 'i', comGrave), ('ò', 'o', comGrave), ('ù', 'u', comGrave)]

/-- Canonical decomposition of one character (the character itself when it
has no decomposition). -/
def decompChar (c : Char) : List Char :=
  match decompTable.find? (fun e => e.1 == c) with
  | some e => [e.2.1, e.2.2]
  | none => [c]

/-- Compatibility decomposition: the canonical table extended with the `ﬁ`
ligature. -/
def kdecompChar (c : Char) : List Char :=
  if c == 'ﬁ' then ['f', 'i'] else decompChar c

/-- Decompose every character of a text with the decomposition `d`. -/
def decompAll (d : Char → List Char) : List Char → List Char
  | [] => []
  | c :: rest => d c ++ decompAll d rest

/-- Canonical composition table: base letter, combining mark, precomposed
character. -/
def composeTable : List (Char × Char × Char) :=
  [('a', comGrave, 'à'), ('e', comGrave, 'è'), ('e', comAcute, 'é'),
   ('i', comGrave, 'ì'), ('o', comGrave, 'ò'), ('u', comGrave, 'ù')]

/-- Compose a base character with a following combining mark, when the pair
is in the composition table. -/
def composeChar (a b : Char) : Option Char :=
  match composeTable.find? (fun e => e.1 == a && e.2.1 == b) with
  | some e => some e.2.2
  | none => none

/-- Left-to-right canonical composition pass, carrying the previous
(not yet emitted) character. -/
def composeAux (prev : Char) : List Char → List Char
  | [] => [prev]
  | c :: rest =>
    match composeChar prev c with
    | some d => composeAux d rest
    | none => prev :: composeAux c rest

/-- Canonical composition of a fully decomposed text. -/
def compose : List Char → List Char
  | [] => []
  | c :: rest => composeAux c rest

/-- `c` is a character produced by the composition table. -/
def composedRes (c : Char) : Bool := composeTable.any (fun e => e.2.2 == c)

/-- Modelled from the spec: the Unicode general-category prefix of a
character (`unicodedata.category(c)[0]`), assigned by the model's finite
character classes: combining marks are `M`, letters `L`, digits `N`,
horizontal space `Z`, control characters (newlines) `C`, punctuation `P`. -/
def charMajorCategory (c : Char) : Char :=
  if isMark c then 'M'
  else if isLetterChar c || c == 'ﬁ' then 'L'
  else if c.isDigit then 'N'
  else if c == ' ' || c == '\t' then 'Z'
  else if c == '\n' || c == '\r' then 'C'
  else if memB c punctList then 'P'
  else 'S'

/-- Default allowed category prefixes: Letter, Number, Punctuation,
Separator. -/
def defaultCategories : List Char := ['L', 'N', 'P', 'Z']

/-- Keep a character iff its general-category prefix is in the allowed
set. -/
def keepChar (allowed : List Char) (c : Char) : Bool :=
  memB (charMajorCategory c) allowed

/-- Apply the normalization form to a decomposed/composed character list. -/
def nfNormalize (form : String) (l : List Char) : List Char :=
  if form = "NFC" then compose (decompAll decompChar l)
  else if form = "NFD" then decompAll decompChar l
  else if form = "NFKC" then compose (decompAll kdecompChar l)
  else decompAll kdecompChar l

/-- Modelled from the spec: `normalize_unicode(text, form,
remove_unsupported, allowed_categories)` (§4.1); the body is missing from
the repository (the stub raises `NotImplementedError`).  Validates `form`
against the four canonical forms, applies the normalization, and when
`remove_unsupported` drops every character whose general-category prefix is
not in `allowed_categories` (defaulting to Letter/Number/Punctuation/
Separator). -/
def normalize_unicode (text : String) (form : String)
    (remove_unsupported : Bool) (allowed_categories : Option (List Char)) :
    Except PrepError String :=
  if form = "NFC" ∨ form = "NFD" ∨ form = "NFKC" ∨ form = "NFKD" then
    let cats := allowed_categories.getD defaultCategories
    let normalized := nfNormalize form text.toList
    let final :=
      if remove_unsupported then normalized.filter (keepChar cats)
      else normalized
    .ok final.asString
  else .error .invalidFormError

/-! ### Case folder model -/

/-- Lower-casing table: ASCII letters plus the accented Italian vowels. -/
def toLowerTable : List (Char × Char) :=
  [('A','a'),('B','b'),('C','c'),('D','d'),('E','e'),('F','f'),('G','g'),
   ('H','h'),('I','i'),('J','j'),('K','k'),('L','l'),('M','m'),('N','n'),
   ('O','o'),('P','p'),('Q','q'),('R','r'),('S','s'),('T','t'),('U','u'),
   ('V','v'),('W','w'),('X','x'),('Y','y'),('Z','z'),
   ('À','à'),('È','è'),('É','é'),('Ì','ì'),('Ò','ò'),('Ù','ù')]

/-- Lower-case one character (identity on characters with no lower-case
mapping in the table). -/
def toLowerChar (c : Char) : Char :=
  match toLowerTable.find? (fun e => e.1 == c) with
  | some e => e.2
  | none => c

/-- Scanner for the non-aggressive mode: `acc` holds the current run of
consecutive upper-case letters (reversed).  When the run ends it is
preserved if it looks like an acronym (length at least two and not followed
by a lower-case letter), otherwise lower-cased. -/
def lcAux : List Char → List Char → List Char
  | acc, [] => if 2 ≤ acc.length then acc.reverse else acc.reverse.map toLowerChar
  | acc, c :: rest =>
    if isUpperChar c then lcAux (c :: acc) rest
    else
      (if 2 ≤ acc.length && !(isLowerChar c) then acc.reverse
       else acc.reverse.map toLowerChar) ++ c :: lcAux [] rest

/-- Modelled from the spec: `lowercase(text, aggressive)` (§4.4); the body
is missing from the repository (the stub raises `NotImplementedError`).
`aggressive = true` lower-cases unconditionally; otherwise sequences of two
or more consecutive upper-case letters not followed by a lower-case letter
are preserved. -/
def lowercase (text : String) (aggressive : Bool) : String :=
  if aggressive then (text.toList.map toLowerChar).asString
  else (lcAux [] text.toList).asString

/-- The non-aggressive contract transcribed directly from its sentence, as
an independent specification function to compare the scanner against: a
sequence of two or more consecutive upper-case letters not followed by a
lower-case letter is preserved unchanged; every other character is
lower-cased. -/
def lcSpec : List Char → List Char
  | [] => []
  | c :: rest =>
    if isUpperChar c then
      (if 2 ≤ ((c :: rest).takeWhile isUpperChar).length &&
          (rest.dropWhile isUpperChar).head?.all (fun d => !(isLowerChar d))
       then (c :: rest).takeWhile isUpperChar
       else ((c :: rest).takeWhile isUpperChar).map toLowerChar) ++
        lcSpec (rest.dropWhile isUpperChar)
    else toLowerChar c :: lcSpec rest
termination_by l => l.length
decreasing_by
  · simp only [List.length_cons]
    exact Nat.lt_succ_of_le (List.dropWhile_sublist _).length_le
  · simp only [List.length_cons]
    exact Nat.lt_succ_self _

/-! ### Whitespace normalizer model -/

/-- Replace every maximal run of characters satisfying `p` by the single
character `rep`; `inRun` records whether the previous character of the
input was in a run. -/
def collapseRunsAux (p : Char → Bool) (rep : Char) : Bool → List Char → List Char
  | _, [] => []
  | inRun, c :: rest =>
    if p c then
      if inRun then collapseRunsAux p rep true rest
      else rep :: collapseRunsAux p rep true rest
    else c :: collapseRunsAux p rep false rest

def collapseRuns (p : Char → Bool) (rep : Char) (l : List Char) : List Char :=
  collapseRunsAux p rep false l

/-- Strip leading and trailing whitespace. -/
def trimWS (l : List Char) : List Char :=
  (((l.dropWhile isWS).reverse).dropWhile isWS).reverse

/-- The list-level core of `normalize_whitespace`: the three rules applied
in sequence on the character list. -/
def wsCore (collapse_spaces collapse_newlines trim : Bool)
    (l : List Char) : List Char :=
  let l1 := if collapse_spaces then collapseRuns isHSpace ' ' l else l
  let l2 := if collapse_newlines then collapseRuns isNL '\n' l1 else l1
  if trim then trimWS l2 else l2

/-- Modelled from the spec: `normalize_whitespace(text, collapse_spaces,
collapse_newlines, trim)` (§4.5); the body is missing from the repository
(the stub raises `NotImplementedError`).  Rules applied in sequence: runs
of horizontal whitespace to a single space, runs of newlines to a single
newline, then trim. -/
def normalize_whitespace (text : String)
    (collapse_spaces collapse_newlines trim : Bool) : String :=
  (wsCore collapse_spaces collapse_newlines trim text.toList).asString

/-! ### Quote/accent normalizer model -/

def smartQuoteMap (c : Char) : Char :=
  if c == '“' || c == '”' || c == '„' then '"'
  else if c == '‘' || c == '’' || c == '‚' then '\''
  else c

def apostropheMap (c : Char) : Char :=
  if c == '’' || c == 'ʼ' || c == 'ʻ' || c == 'ʹ' then '\'' else c

/-- Built-in default transliteration table for `ascii_fallback`. -/
def defaultAccentMap : List (Char × String) :=
  [('à', "a"), ('è', "e"), ('é', "e"), ('ì', "i"), ('ò', "o"), ('ù', "u"),
   ('À', "A"), ('È', "E"), ('É', "E"), ('Ì', "I"), ('Ò', "O"), ('Ù', "U")]

/-- Transliterate one character using the caller-supplied map merged over
the default table; unmapped characters pass through unchanged. -/
def translitChar (m : List (Char × String)) (c : Char) : List Char :=
  match (m ++ defaultAccentMap).find? (fun e => e.1 == c) with
  | some e => e.2.toList
  | none => [c]

/-- Modelled from the spec: `normalize_quotes_and_accents(text,
map_smart_quotes, normalize_apostrophes, ascii_fallback, accent_map)`
(§4.2); the body is missing from the repository (the stub raises
`NotImplementedError`). -/
def normalize_quotes_and_accents (text : String)
    (map_smart_quotes normalize_apostrophes ascii_fallback : Bool)
    (accent_map : List (Char × String)) : String :=
  let l1 := if map_smart_quotes then text.toList.map smartQuoteMap
            else text.toList
  let l2 := if normalize_apostrophes then l1.map apostropheMap else l1
  let l3 := if ascii_fallback then decompAll (translitChar accent_map) l2
            else l2
  l3.asString

/-! ### Broken-word rejoiner model -/

/-- Modelled from the spec: the scanning core of `handle_broken_words`
(§4.3), whose body is missing from the repository (the stub raises
`NotImplementedError`).  Structural recursion on an explicit fuel (the
wrapper passes the length of the text, which bounds the number of steps).
A word fragment ending in a hyphen at the literal end of a line (trailing
horizontal whitespace ignored) is merged with the continuation fragment on
the next line when the number of intervening newlines is at most
`maxGap + 1` (0 = one immediate line break), the continuation starts with a
letter, and the pre-hyphen fragment is not itself a token of
`preserve`; otherwise the hyphen and line breaks are left untouched. -/
def hbwFuel (preserve : List String) (maxGap : Nat) : Nat → List Char → List Char
  | 0, l => l
  | _ + 1, [] => []
  | fuel + 1, c :: rest =>
    if isLetterChar c then
      let frag := (c :: rest).takeWhile isLetterChar
      let after := (c :: rest).dropWhile isLetterChar
      match after with
      | '-' :: tail =>
        let afterH := tail.dropWhile isHSpace
        let nls := afterH.takeWhile isNL
        let cont := afterH.dropWhile isNL
        let contOk := match cont with
          | d :: _ => isLetterChar d
          | [] => false
        if 1 ≤ nls.length && nls.length ≤ maxGap + 1 && contOk &&
            !(memB frag.asString preserve) then
          frag ++ hbwFuel preserve maxGap fuel cont
        else
          frag ++ '-' :: hbwFuel preserve maxGap fuel tail
      | _ => frag ++ hbwFuel preserve maxGap fuel after
    else c :: hbwFuel preserve maxGap fuel rest

/-- Modelled from the spec: `handle_broken_words(text, join_hyphenated,
max_line_gap, preserve_tokens)` (§4.3); the body is missing from the
repository (the stub raises `NotImplementedError`). -/
def handle_broken_words (text : String) (join_hyphenated : Bool)
    (max_line_gap : Nat) (preserve_tokens : List String) : String :=
  if join_hyphenated then
    (hbwFuel preserve_tokens max_line_gap text.toList.length text.toList).asString
  else text

/-! ### Sentence splitter model -/

/-- Italian abbreviation exception list for the simple splitter. -/
def itAbbrevs : List String :=
  ["Sig", "Dott", "Prof", "Ing", "Avv", "ecc", "pag", "art"]

def abbrevsFor (language : String) : List String :=
  if language = "it" then itAbbrevs else []

/-- Flush the current (reversed) sentence accumulator: trim it and drop it
when empty.  `out` is the reversed list of finished sentences. -/
def flushSentence (acc : List Char) (out : List (List Char)) :
    List (List Char) :=
  let s := trimWS acc.reverse
  if s.isEmpty then out else s :: out

/-- Paragraph-boundary marker sentence emitted when `keep_line_breaks` is
requested. -/
def paraMark : List Char := ['<', 'p', '>']

/-- Modelled from the spec: the rule-based core of `split_sentences`
(§4.6), whose body is missing from the repository (the stub raises
`NotImplementedError`).  Splits on `.`/`!`/`?` when the token before a
period is not a known abbreviation and the next non-whitespace character
does not indicate a lower-case continuation.  When `kb` is set, blank-line
paragraph boundaries are preserved as an explicit `<p>` marker sentence;
`skipNL` skips over the remainder of a blank-line run. -/
def splitSimpleAux (abbrevs : List String) (kb : Bool) :
    Bool → List Char → List (List Char) → List Char → List (List Char)
  | _, acc, out, [] => flushSentence acc out
  | skipNL, acc, out, c :: rest =>
    if skipNL && c == '\n' then splitSimpleAux abbrevs kb true acc out rest
    else if kb && c == '\n' && rest.head? == some '\n' then
      splitSimpleAux abbrevs kb true [] (paraMark :: flushSentence acc out) rest
    else if c == '.' || c == '!' || c == '?' then
      let acc' := c :: acc
      let prevTok := ((acc.takeWhile isLetterChar).reverse).asString
      let nextOk := match rest.dropWhile (fun x => isWS x) with
        | [] => true
        | d :: _ => !(isLowerChar d)
      let isAbbrev := c == '.' && memB prevTok abbrevs
      if nextOk && !isAbbrev then
        splitSimpleAux abbrevs kb false [] (flushSentence acc' out) rest
      else splitSimpleAux abbrevs kb false acc' out rest
    else splitSimpleAux abbrevs kb false (c :: acc) out rest

/-- Modelled from the spec: `split_sentences(text, method, language,
keep_line_breaks)` (§4.6); the body is missing from the repository (the
stub raises `NotImplementedError`).  Only the rule-based `"simple"` method
is available in the model (the model-based methods delegate to an external
segmenter capability that the repository treats as out of scope); every
other `method` value fails with `UnsupportedMethodError`. -/
def split_sentences (text : String) (method : String) (language : String)
    (keep_line_breaks : Bool) : Except PrepError (List String) :=
  if method = "simple" then
    .ok ((((splitSimpleAux (abbrevsFor language) keep_line_breaks
        false [] [] text.toList).reverse).map List.asString))
  else .error .unsupportedMethodError

/-! ### Pipeline orchestrator model -/

structure UnicodeOptions where
  form : String
  remove_unsupported : Bool
  allowed_categories : Option (List Char)

structure SplitOptions where
  method : String
  language : String
  keep_line_breaks : Bool

structure BrokenOptions where
  join_hyphenated : Bool
  max_line_gap : Nat
  preserve_tokens : List String

structure WhitespaceOptions where
  collapse_spaces : Bool
  collapse_newlines : Bool
  trim : Bool

structure QuoteOptions where
  map_smart_quotes : Bool
  normalize_apostrophes : Bool
  ascii_fallback : Bool
  accent_map : List (Char × String)

/-- Modelled from the spec: `preprocess_pipeline` (§4.7); the body is
missing from the repository (the stub raises `NotImplementedError`).  The
OCR corrector is an injected capability `correct` (§6, §9).  Stages are
applied in the fixed order of the stub's docstring — OCR correction,
Unicode normalization, quote/accent normalization, broken-word handling,
lower-casing, whitespace normalization, sentence splitting — each skipped
(pass-through) when its enable flag is false; with sentence splitting
disabled the document passes through as a single-element list. -/
def preprocess_pipeline (correct : String → String) (text : String)
    (do_ocr_correction do_unicode_normalize do_lowercase do_handle_broken
     do_split_sentences do_whitespace_normalize do_quote_normalize : Bool)
    (unicode_options : UnicodeOptions) (split_options : SplitOptions)
    (broken_options : BrokenOptions) (whitespace_options : WhitespaceOptions)
    (quote_options : QuoteOptions) : Except PrepError (List String) :=
  (if do_ocr_correction then Except.ok (correct text) else Except.ok text).bind fun t1 =>
  (if do_unicode_normalize then
      normalize_unicode t1 unicode_options.form
        unicode_options.remove_unsupported unicode_options.allowed_categories
    else Except.ok t1).bind fun t2 =>
  (if do_quote_normalize then
      Except.ok (normalize_quotes_and_accents t2 quote_options.map_smart_quotes
        quote_options.normalize_apostrophes quote_options.ascii_fallback
        quote_options.accent_map)
    else Except.ok t2).bind fun t3 =>
  (if do_handle_broken then
      Except.ok (handle_broken_words t3 broken_options.join_hyphenated
        broken_options.max_line_gap broken_options.preserve_tokens)
    else Except.ok t3).bind fun t4 =>
  (if do_lowercase then Except.ok (lowercase t4 false) else Except.ok t4).bind fun t5 =>
  (if do_whitespace_normalize then
      Except.ok (normalize_whitespace t5 whitespace_options.collapse_spaces
        whitespace_options.collapse_newlines whitespace_options.trim)
    else Except.ok t5).bind fun t6 =>
  if do_split_sentences then
    split_sentences t6 split_options.method split_options.language
      split_options.keep_line_breaks
  else Except.ok [t6]

/-- The composition of only the enabled stage functions, in order: a stage
whose flag is false is simply absent from the composition. -/
def chainStages : List (Bool × (String → Except PrepError String)) → String →
    Except PrepError String
  | [], t => .ok t
  | (flag, f) :: rest, t =>
    if flag then (f t).bind (chainStages rest) else chainStages rest t

/-- The six text-to-text stages of the pipeline, paired with their enable
flags, in the pipeline's fixed order. -/
def stageList (correct : String → String)
    (f1 f2 f3 f4 f5 f6 : Bool) (u : UnicodeOptions) (q : QuoteOptions)
    (b : BrokenOptions) (w : WhitespaceOptions) :
    List (Bool × (String → Except PrepError String)) :=
  [(f1, fun t => Except.ok (correct t)),
   (f2, fun t => normalize_unicode t u.form u.remove_unsupported u.allowed_categories),
   (f3, fun t => Except.ok (normalize_quotes_and_accents t q.map_smart_quotes
      q.normalize_apostrophes q.ascii_fallback q.accent_map)),
   (f4, fun t => Except.ok (handle_broken_words t b.join_hyphenated
      b.max_line_gap b.preserve_tokens)),
   (f5, fun t => Except.ok (lowercase t false)),
   (f6, fun t => Except.ok (normalize_whitespace t w.collapse_spaces
      w.collapse_newlines w.trim))]

/-! ### The code as written: the stubs

Literal embedding of the bodies found in `src/preprocessing/preprocessing.py`:
every function unconditionally raises `NotImplementedError` with the message
of its stub. -/

namespace Stub

def ocr_correction (text : String) (model_path : Option String)
    (use_remote : Bool) (device : String) (batch_size : Nat)
    (verbose : Bool) : Except PrepError String :=
  .error (.notImplementedError
    "Implement OCR correction using the chosen model/service.")

def normalize_unicode (text : String) (form : String)
    (remove_unsupported : Bool) (allowed_categories : Option (List Char)) :
    Except PrepError String :=
  .error (.notImplementedError "Implement Unicode normalization and filtering.")

def lowercase (text : String) (aggressive : Bool) : Except PrepError String :=
  .error (.notImplementedError "Implement lowercasing with optional heuristics.")

def split_sentences (text : String) (method : String) (language : String)
    (keep_line_breaks : Bool) : Except PrepError (List String) :=
  .error (.notImplementedError
    "Implement sentence splitting using the chosen method.")

def handle_broken_words (text : String) (join_hyphenated : Bool)
    (max_line_gap : Nat) (preserve_tokens : List String) :
    Except PrepError String :=
  .error (.notImplementedError "Implement broken-word rejoining logic.")

def normalize_whitespace (text : String)
    (collapse_spaces collapse_newlines trim : Bool) :
    Except PrepError String :=
  .error (.notImplementedError "Implement whitespace normalization.")

def normalize_quotes_and_accents (text : String)
    (map_smart_quotes normalize_apostrophes ascii_fallback : Bool)
    (accent_map : List (Char × String)) : Except PrepError String :=
  .error (.notImplementedError "Implement quote and accent normalization.")

def preprocess_pipeline (text : String)
    (do_ocr_correction do_unicode_normalize do_lowercase do_handle_broken
     do_split_sentences do_whitespace_normalize do_quote_normalize : Bool)
    (ocr_options unicode_options split_options broken_options
     whitespace_options quote_options : Option (List (String × String))) :
    Except PrepError (List String) :=
  .error (.notImplementedError
    "Implement the preprocessing pipeline orchestration.")

end Stub

/-! ### Proof-support definitions -/

instance {ε α : Type} [DecidableEq ε] [DecidableEq α] : DecidableEq (Except ε α) := fun x y =>
  match x, y with
  | .ok a, .ok b => if h : a = b then isTrue (by rw [h]) else isFalse (by simp [h])
  | .error e, .error f => if h : e = f then isTrue (by rw [h]) else isFalse (by simp [h])
  | .ok _, .error _ => isFalse (by simp)
  | .error _, .ok _ => isFalse (by simp)

/-- A character is stable for NFC-style normalization with decomposition
`d`: it is its own (non-mark) decomposition, or it is a composed character
whose decomposition recomposes to it. -/
def StableFor (d : Char → List Char) (c : Char) : Prop :=
  (d c = [c] ∧ isMark c = false) ∨
  (∃ b m, d c = [b, m] ∧ composeChar b m = some c ∧ isMark b = false ∧
    ∀ y, composeChar c y = none)

/-- A list is in collapsed form for (`p`, `rep`): every `p`-character is
`rep` and no two adjacent characters both satisfy `p`. -/
def RunOK (p : Char → Bool) (rep : Char) (l : List Char) : Prop :=
  (∀ c ∈ l, p c = true → c = rep) ∧
  List.Chain' (fun a b => ¬(p a = true ∧ p b = true)) l

/-- A list neither starts nor ends with whitespace. -/
def EndsOK (l : List Char) : Prop :=
  (∀ h ∈ l.head?, isWS h = false) ∧ (∀ h ∈ l.getLast?, isWS h = false)

/-! ### Basic lemmas -/

theorem memB_iff {α : Type} [BEq α] [LawfulBEq α] (a : α) (l : List α) :
    memB a l = true ↔ a ∈ l := by
  induction l with
  | nil => simp [memB]
  | cons b rest ih => simp [memB, ih, beq_iff_eq]

theorem toList_asString (l : List Char) : (List.asString l).toList = l := rfl

theorem except_ok_bind {ε α β : Type} (a : α) (f : α → Except ε β) :
    (Except.ok a).bind f = f a := rfl

theorem except_bind_assoc {ε α β γ : Type} (x : Except ε α)
    (f : α → Except ε β) (g : β → Except ε γ) :
    (x.bind f).bind g = x.bind (fun a => (f a).bind g) := by
  cases x <;> rfl

/-! ### Claim theorems: the stubs (C10) and the easy behavioural claims -/

/-- Claim C10: in the code as written, every public function of the module
(`preprocess_pipeline`, `split_sentences`, `normalize_unicode`,
`handle_broken_words`, `ocr_correction`, `lowercase`,
`normalize_whitespace`, `normalize_quotes_and_accents`) raises
`NotImplementedError` for every input and every option combination; no call
returns a value or raises any of the specification's error types. -/
theorem claim_C10_all_stubs_raise_notImplementedError :
    (∀ text model_path use_remote device batch_size verbose,
      Stub.ocr_correction text model_path use_remote device batch_size verbose =
        .error (.notImplementedError
          "Implement OCR correction using the chosen model/service.")) ∧
    (∀ text form remove_unsupported allowed_categories,
      Stub.normalize_unicode text form remove_unsupported allowed_categories =
        .error (.notImplementedError
          "Implement Unicode normalization and filtering.")) ∧
    (∀ text aggressive,
      Stub.lowercase text aggressive =
        .error (.notImplementedError
          "Implement lowercasing with optional heuristics.")) ∧
    (∀ text method language keep_line_breaks,
      Stub.split_sentences text method language keep_line_breaks =
        .error (.notImplementedError
          "Implement sentence splitting using the chosen method.")) ∧
    (∀ text join_hyphenated max_line_gap preserve_tokens,
      Stub.handle_broken_words text join_hyphenated max_line_gap preserve_tokens =
        .error (.notImplementedError "Implement broken-word rejoining logic.")) ∧
    (∀ text collapse_spaces collapse_newlines trim,
      Stub.normalize_whitespace text collapse_spaces collapse_newlines trim =
        .error (.notImplementedError "Implement whitespace normalization.")) ∧
    (∀ text map_smart_quotes normalize_apostrophes ascii_fallback accent_map,
      Stub.normalize_quotes_and_accents text map_smart_quotes
          normalize_apostrophes ascii_fallback accent_map =
        .error (.notImplementedError
          "Implement quote and accent normalization.")) ∧
    (∀ text f1 f2 f3 f4 f5 f6 f7 o1 o2 o3 o4 o5 o6,
      Stub.preprocess_pipeline text f1 f2 f3 f4 f5 f6 f7 o1 o2 o3 o4 o5 o6 =
        .error (.notImplementedError
          "Implement the preprocessing pipeline orchestration.")) := by
  refine ⟨?_, ?_, ?_, ?_, ?_, ?_, ?_, ?_⟩ <;> intros <;> rfl

/-- Claim C2: calling `split_sentences` with a method value that is not a
supported method raises `UnsupportedMethodError`; the function is pure, so
no output is produced and the input text is left unchanged. -/
theorem claim_C2_unknown_method_fails (text method language : String)
    (keep_line_breaks : Bool) (h : method ≠ "simple") :
    split_sentences text method language keep_line_breaks =
      .error .unsupportedMethodError := by
  unfold split_sentences
  rw [if_neg h]

theorem claim_C2_witness :
    "unknown" ≠ "simple" ∧
    split_sentences "Il gatto dorme." "unknown" "it" false =
      .error .unsupportedMethodError :=
  ⟨by decide, claim_C2_unknown_method_fails "Il gatto dorme." "unknown" "it" false (by decide)⟩

/-- Claim C3: `normalize_unicode` fails with `InvalidFormError` if and only
if `form` is not one of the four canonical normalization forms. -/
theorem claim_C3_invalid_form_iff (text form : String)
    (remove_unsupported : Bool) (allowed_categories : Option (List Char)) :
    normalize_unicode text form remove_unsupported allowed_categories =
        .error .invalidFormError ↔
      ¬(form = "NFC" ∨ form = "NFD" ∨ form = "NFKC" ∨ form = "NFKD") := by
  unfold normalize_unicode
  by_cases h : form = "NFC" ∨ form = "NFD" ∨ form = "NFKC" ∨ form = "NFKD" <;>
    simp [h]

/-- Claim C6: `handle_broken_words` on `"il libro è molto interes-\nsante."`
with `join_hyphenated = true` and `max_line_gap = 0` merges the fragments
and removes the line break. -/
theorem claim_C6_rejoin_example :
    handle_broken_words "il libro è molto interes-\nsante." true 0 [] =
      "il libro è molto interessante." := by decide

/-- Claim C7: `handle_broken_words` is conservative with respect to
`preserve_tokens`: on `"parole chiave: ben-\nessere"` the fragments merge
into `benessere` when `"ben"` is not protected, but with `"ben"` in
`preserve_tokens` (matched case-sensitively against the pre-hyphen
fragment) the hyphen and line break are left unchanged. -/
theorem claim_C7_preserve_tokens_conservatism :
    handle_broken_words "parole chiave: ben-\nessere" true 0 [] =
        "parole chiave: benessere" ∧
      handle_broken_words "parole chiave: ben-\nessere" true 0 ["ben"] =
        "parole chiave: ben-\nessere" := by decide

/-- Claim C8: `split_sentences` on `"Il gatto dorme. Il cane corre!"` with
the simple method and Italian language yields exactly the two sentences in
document order, each trimmed and non-empty. -/
theorem claim_C8_split_example :
    split_sentences "Il gatto dorme. Il cane corre!" "simple" "it" false =
      .ok ["Il gatto dorme.", "Il cane corre!"] := by decide

/-! ### Unicode normalization lemmas -/

theorem decompChar_irred (c : Char) : ∀ x ∈ decompChar c, decompChar x = [x] := by
  intro x hx
  unfold decompChar at hx
  cases h : decompTable.find? (fun e => e.1 == c) with
  | none =>
      rw [h] at hx
      simp at hx
      subst hx
      unfold decompChar
      rw [h]
  | some e =>
      rw [h] at hx
      have he := List.mem_of_find?_eq_some h
      have hall : ∀ y ∈ decompTable, ∀ x ∈ [y.2.1, y.2.2], decompChar x = [x] := by decide
      exact hall e he x hx

theorem kdecompChar_irred (c : Char) : ∀ x ∈ kdecompChar c, kdecompChar x = [x] := by
  intro x hx
  unfold kdecompChar at hx
  by_cases hfi : c == 'ﬁ'
  · rw [if_pos hfi] at hx
    simp at hx
    rcases hx with rfl | rfl <;> decide
  · rw [if_neg hfi] at hx
    unfold decompChar at hx
    cases h : decompTable.find? (fun e => e.1 == c) with
    | none =>
        rw [h] at hx
        simp at hx
        subst hx
        unfold kdecompChar decompChar
        rw [if_neg hfi, h]
    | some e =>
        rw [h] at hx
        have he := List.mem_of_find?_eq_some h
        have hall : ∀ y ∈ decompTable, ∀ x ∈ [y.2.1, y.2.2], kdecompChar x = [x] := by decide
        exact hall e he x hx

theorem composeChar_none_of_not_mark (b : Char) (hb : isMark b = false) (a : Char) :
    composeChar a b = none := by
  have hnone : composeTable.find? (fun e => e.1 == a && e.2.1 == b) = none := by
    rw [List.find?_eq_none]
    intro e he hco
    rw [Bool.and_eq_true, beq_iff_eq, beq_iff_eq] at hco
    have hmarks : ∀ y ∈ composeTable, isMark y.2.1 = true := by decide
    have := hmarks e he
    rw [hco.2] at this
    rw [this] at hb
    exact absurd hb (by simp)
  unfold composeChar
  rw [hnone]

theorem composeChar_left_none (c : Char) (hc : ∀ e ∈ composeTable, e.1 ≠ c)
    (y : Char) : composeChar c y = none := by
  have hnone : composeTable.find? (fun e => e.1 == c && e.2.1 == y) = none := by
    rw [List.find?_eq_none]
    intro e he hco
    rw [Bool.and_eq_true, beq_iff_eq, beq_iff_eq] at hco
    exact hc e he hco.1
  unfold composeChar
  rw [hnone]

theorem composedRes_of_composeChar {a b c : Char} (h : composeChar a b = some c) :
    composedRes c = true := by
  unfold composeChar at h
  cases hf : composeTable.find? (fun e => e.1 == a && e.2.1 == b) with
  | none => rw [hf] at h; exact absurd h (by simp)
  | some e =>
      rw [hf] at h
      simp only [Option.some.injEq] at h
      subst h
      exact List.any_eq_true.mpr ⟨e, List.mem_of_find?_eq_some hf, by simp⟩

theorem composedRes_spec (c : Char) (h : composedRes c = true) :
    ∃ b m, decompChar c = [b, m] ∧ kdecompChar c = [b, m] ∧
      composeChar b m = some c ∧ isMark b = false ∧
      ∀ y, composeChar c y = none := by
  unfold composedRes at h
  rw [List.any_eq_true] at h
  obtain ⟨e, he, hec⟩ := h
  rw [beq_iff_eq] at hec
  subst hec
  simp [composeTable] at he
  rcases he with rfl | rfl | rfl | rfl | rfl | rfl
  · exact ⟨'a', comGrave, by decide, by decide, by decide, by decide,
      composeChar_left_none 'à' (by decide)⟩
  · exact ⟨'e', comGrave, by decide, by decide, by decide, by decide,
      composeChar_left_none 'è' (by decide)⟩
  · exact ⟨'e', comAcute, by decide, by decide, by decide, by decide,
      composeChar_left_none 'é' (by decide)⟩
  · exact ⟨'i', comGrave, by decide, by decide, by decide, by decide,
      composeChar_left_none 'ì' (by decide)⟩
  · exact ⟨'o', comGrave, by decide, by decide, by decide, by decide,
      composeChar_left_none 'ò' (by decide)⟩
  · exact ⟨'u', comGrave, by decide, by decide, by decide, by decide,
      composeChar_left_none 'ù' (by decide)⟩

theorem stableFor_decompChar_of_composedRes (x : Char) (h : composedRes x = true) :
    StableFor decompChar x := by
  obtain ⟨b, m, h1, _, h3, h4, h5⟩ := composedRes_spec x h
  exact Or.inr ⟨b, m, h1, h3, h4, h5⟩

theorem stableFor_kdecompChar_of_composedRes (x : Char) (h : composedRes x = true) :
    StableFor kdecompChar x := by
  obtain ⟨b, m, _, h2, h3, h4, h5⟩ := composedRes_spec x h
  exact Or.inr ⟨b, m, h2, h3, h4, h5⟩

theorem composeAux_of_none {c : Char} (hc : ∀ y, composeChar c y = none)
    (l : List Char) : composeAux c l = c :: compose l := by
  cases l with
  | nil => rfl
  | cons h t =>
      unfold composeAux
      rw [hc h]
      rfl

theorem mem_composeAux : ∀ (l : List Char) (prev x : Char),
    x ∈ composeAux prev l → x = prev ∨ x ∈ l ∨ composedRes x = true := by
  intro l
  induction l with
  | nil =>
      intro prev x hx
      simp [composeAux] at hx
      exact Or.inl hx
  | cons c rest ih =>
      intro prev x hx
      unfold composeAux at hx
      cases hc : composeChar prev c with
      | some d =>
          rw [hc] at hx
          rcases ih d x hx with rfl | h | h
          · exact Or.inr (Or.inr (composedRes_of_composeChar hc))
          · exact Or.inr (Or.inl (List.mem_cons_of_mem _ h))
          · exact Or.inr (Or.inr h)
      | none =>
          rw [hc] at hx
          rcases List.mem_cons.mp hx with rfl | hx'
          · exact Or.inl rfl
          · rcases ih c x hx' with rfl | h | h
            · exact Or.inr (Or.inl (List.mem_cons_self _ _))
            · exact Or.inr (Or.inl (List.mem_cons_of_mem _ h))
            · exact Or.inr (Or.inr h)

theorem mem_compose {s : List Char} {x : Char} (hx : x ∈ compose s) :
    x ∈ s ∨ composedRes x = true := by
  cases s with
  | nil => simp [compose] at hx
  | cons c rest =>
      rcases mem_composeAux rest c x hx with rfl | h | h
      · exact Or.inl (List.mem_cons_self _ _)
      · exact Or.inl (List.mem_cons_of_mem _ h)
      · exact Or.inr h

theorem mem_decompAll {d : Char → List Char} :
    ∀ {l x}, x ∈ decompAll d l → ∃ c ∈ l, x ∈ d c := by
  intro l
  induction l with
  | nil => intro x hx; simp [decompAll] at hx
  | cons c rest ih =>
      intro x hx
      unfold decompAll at hx
      rcases List.mem_append.mp hx with h | h
      · exact ⟨c, List.mem_cons_self _ _, h⟩
      · obtain ⟨c2, hc2, hxc⟩ := ih h
        exact ⟨c2, List.mem_cons_of_mem _ hc2, hxc⟩

theorem decompAll_eq_self {d : Char → List Char} :
    ∀ {u : List Char}, (∀ c ∈ u, d c = [c]) → decompAll d u = u := by
  intro u
  induction u with
  | nil => intro _; rfl
  | cons c rest ih =>
      intro h
      unfold decompAll
      rw [h c (List.mem_cons_self _ _), ih fun x hx => h x (List.mem_cons_of_mem _ hx)]
      rfl

theorem stable_head {d : Char → List Char} {c : Char} (h : StableFor d c) :
    ∃ b rest0, d c = b :: rest0 ∧ isMark b = false := by
  rcases h with ⟨hdc, hmc⟩ | ⟨b, m, hdc, _, hmb, _⟩
  · exact ⟨c, [], hdc, hmc⟩
  · exact ⟨b, [m], hdc, hmb⟩

theorem composeAux_over (d : Char → List Char) (c : Char) (rest : List Char)
    (hrest : ∀ x ∈ rest, StableFor d x)
    (ihr : compose (decompAll d rest) = rest)
    (hcan : ∀ y, isMark y = false → composeChar c y = none) :
    composeAux c (decompAll d rest) = c :: rest := by
  cases rest with
  | nil => rfl
  | cons c2 r2 =>
      obtain ⟨b2, rest0, hd2, hmb2⟩ := stable_head (hrest c2 (List.mem_cons_self _ _))
      have hD : decompAll d (c2 :: r2) = b2 :: (rest0 ++ decompAll d r2) := by
        show d c2 ++ decompAll d r2 = _
        rw [hd2, List.cons_append]
      rw [hD]
      unfold composeAux
      rw [hcan b2 hmb2]
      have hB : composeAux b2 (rest0 ++ decompAll d r2) =
          compose (decompAll d (c2 :: r2)) := by
        rw [hD]
        rfl
      rw [hB, ihr]

theorem compose_decompAll_stable (d : Char → List Char) :
    ∀ u : List Char, (∀ c ∈ u, StableFor d c) →
      compose (decompAll d u) = u := by
  intro u
  induction u with
  | nil => intro _; rfl
  | cons c rest ih =>
      intro hall
      have hrest : ∀ x ∈ rest, StableFor d x :=
        fun x hx => hall x (List.mem_cons_of_mem _ hx)
      have ihr := ih hrest
      rcases hall c (List.mem_cons_self _ _) with ⟨hdc, hmc⟩ | ⟨b, m, hdc, hcomp, hmb, hnone⟩
      · have hD : decompAll d (c :: rest) = c :: decompAll d rest := by
          show d c ++ decompAll d rest = _
          rw [hdc]
          rfl
        rw [hD]
        show composeAux c (decompAll d rest) = c :: rest
        exact composeAux_over d c rest hrest ihr
          (fun y hy => composeChar_none_of_not_mark y hy c)
      · have hD : decompAll d (c :: rest) = b :: m :: decompAll d rest := by
          show d c ++ decompAll d rest = _
          rw [hdc]
          rfl
        rw [hD]
        show composeAux b (m :: decompAll d rest) = c :: rest
        unfold composeAux
        rw [hcomp]
        exact composeAux_over d c rest hrest ihr (fun y _ => hnone y)

theorem filter_idem (p : Char → Bool) (l : List Char) :
    (l.filter p).filter p = l.filter p :=
  List.filter_eq_self.mpr fun a ha => (List.mem_filter.mp ha).2

theorem nfd_idem (d : Char → List Char) (hd : ∀ c, ∀ x ∈ d c, d x = [x])
    (p : Char → Bool) (l : List Char) :
    (decompAll d ((decompAll d l).filter p)).filter p =
      (decompAll d l).filter p := by
  have hirr : ∀ x ∈ (decompAll d l).filter p, d x = [x] := by
    intro x hx
    obtain ⟨c, _, hxc⟩ := mem_decompAll (List.mem_filter.mp hx).1
    exact hd c x hxc
  rw [decompAll_eq_self hirr]
  exact filter_idem p _

theorem keepDefault_not_mark (x : Char)
    (h : keepChar defaultCategories x = true) : isMark x = false := by
  by_contra hm
  rw [Bool.not_eq_false] at hm
  unfold isMark at hm
  rw [Bool.or_eq_true, beq_iff_eq, beq_iff_eq] at hm
  rcases hm with rfl | rfl <;> exact absurd h (by decide)

theorem nfc_idem (d : Char → List Char) (p : Char → Bool) (l : List Char)
    (hd : ∀ c, ∀ x ∈ d c, d x = [x])
    (hp : ∀ x, p x = true → isMark x = false)
    (hcr : ∀ x, composedRes x = true → StableFor d x) :
    (compose (decompAll d ((compose (decompAll d l)).filter p))).filter p =
      (compose (decompAll d l)).filter p := by
  have hstab : ∀ x ∈ (compose (decompAll d l)).filter p, StableFor d x := by
    intro x hx
    obtain ⟨hxc, hpx⟩ := List.mem_filter.mp hx
    rcases mem_compose hxc with hmem | hcomp
    · obtain ⟨c, _, hxc2⟩ := mem_decompAll hmem
      exact Or.inl ⟨hd c x hxc2, hp x hpx⟩
    · exact hcr x hcomp
  rw [compose_decompAll_stable d _ hstab]
  exact filter_idem p _

/-- Claim C5: `normalize_unicode` is idempotent in its form argument: for
every text and every valid form (the remaining options at their defaults,
`remove_unsupported = true` and the default category set), applying it
twice yields the same result as applying it once. -/
theorem claim_C5_normalize_unicode_idempotent (t : String) (form : String)
    (h : form = "NFC" ∨ form = "NFD" ∨ form = "NFKC" ∨ form = "NFKD") :
    (normalize_unicode t form true none).bind
        (fun u => normalize_unicode u form true none) =
      normalize_unicode t form true none := by
  rcases h with rfl | rfl | rfl | rfl
  · show Except.ok _ = Except.ok _
    exact congrArg (fun l => Except.ok (List.asString l))
      (nfc_idem decompChar (keepChar defaultCategories) t.toList
        decompChar_irred keepDefault_not_mark stableFor_decompChar_of_composedRes)
  · show Except.ok _ = Except.ok _
    exact congrArg (fun l => Except.ok (List.asString l))
      (nfd_idem decompChar decompChar_irred (keepChar defaultCategories) t.toList)
  · show Except.ok _ = Except.ok _
    exact congrArg (fun l => Except.ok (List.asString l))
      (nfc_idem kdecompChar (keepChar defaultCategories) t.toList
        kdecompChar_irred keepDefault_not_mark stableFor_kdecompChar_of_composedRes)
  · show Except.ok _ = Except.ok _
    exact congrArg (fun l => Except.ok (List.asString l))
      (nfd_idem kdecompChar kdecompChar_irred (keepChar defaultCategories) t.toList)

theorem claim_C5_witness :
    ("NFC" = "NFC" ∨ "NFC" = "NFD" ∨ "NFC" = "NFKC" ∨ "NFC" = "NFKD") ∧
    (normalize_unicode "Caffè" "NFC" true none).bind
        (fun u => normalize_unicode u "NFC" true none) =
      normalize_unicode "Caffè" "NFC" true none :=
  ⟨Or.inl rfl, claim_C5_normalize_unicode_idempotent "Caffè" "NFC" (Or.inl rfl)⟩

/-! ### Whitespace normalizer lemmas -/

theorem runOK_tail {p : Char → Bool} {rep c : Char} {l : List Char}
    (h : RunOK p rep (c :: l)) : RunOK p rep l :=
  ⟨fun x hx hpx => h.1 x (List.mem_cons_of_mem _ hx) hpx,
    (List.chain'_cons'.mp h.2).2⟩

theorem runOK_collapseAux (p : Char → Bool) (rep : Char) (hrep : p rep = true) :
    ∀ (l : List Char) (b : Bool),
      RunOK p rep (collapseRunsAux p rep b l) ∧
        (b = true → ∀ h ∈ (collapseRunsAux p rep b l).head?, p h = false) := by
  intro l
  induction l with
  | nil =>
      intro b
      refine ⟨⟨?_, ?_⟩, ?_⟩ <;> simp [collapseRunsAux]
  | cons c rest ih =>
      intro b
      by_cases hpc : p c = true
      · cases b with
        | true =>
            have heq : collapseRunsAux p rep true (c :: rest) =
                collapseRunsAux p rep true rest := by
              simp [collapseRunsAux, hpc]
            rw [heq]
            exact ⟨(ih true).1, fun _ => (ih true).2 rfl⟩
        | false =>
            have heq : collapseRunsAux p rep false (c :: rest) =
                rep :: collapseRunsAux p rep true rest := by
              simp [collapseRunsAux, hpc]
            rw [heq]
            have h1 := (ih true).1
            have h2 := (ih true).2 rfl
            constructor
            · constructor
              · intro x hx hpx
                rcases List.mem_cons.mp hx with rfl | hx'
                · rfl
                · exact h1.1 x hx' hpx
              · refine List.chain'_cons'.mpr ⟨?_, h1.2⟩
                intro y hy hcon
                have := h2 y hy
                rw [this] at hcon
                exact absurd hcon.2 (by simp)
            · intro hb
              exact absurd hb (by simp)
      · have hpc' : p c = false := by rwa [Bool.not_eq_true] at hpc
        have heq : collapseRunsAux p rep b (c :: rest) =
            c :: collapseRunsAux p rep false rest := by
          simp [collapseRunsAux, hpc']
        rw [heq]
        have h1 := (ih false).1
        constructor
        · constructor
          · intro x hx hpx
            rcases List.mem_cons.mp hx with rfl | hx'
            · rw [hpc'] at hpx
              exact absurd hpx (by simp)
            · exact h1.1 x hx' hpx
          · refine List.chain'_cons'.mpr ⟨?_, h1.2⟩
            intro y hy hcon
            rw [hpc'] at hcon
            exact absurd hcon.1 (by simp)
        · intro _ h hh
          simp at hh
          subst hh
          exact hpc'

theorem collapseAux_eq_self (p : Char → Bool) (rep : Char) :
    ∀ (l : List Char) (b : Bool), RunOK p rep l →
      (b = true → ∀ h ∈ l.head?, p h = false) →
      collapseRunsAux p rep b l = l := by
  intro l
  induction l with
  | nil => intro b _ _; rfl
  | cons c rest ih =>
      intro b hok hb
      by_cases hpc : p c = true
      · cases b with
        | true =>
            have := hb rfl c (by simp)
            rw [this] at hpc
            exact absurd hpc (by simp)
        | false =>
            have hcrep : c = rep := hok.1 c (List.mem_cons_self _ _) hpc
            have hchain := List.chain'_cons'.mp hok.2
            have hhead : ∀ h ∈ rest.head?, p h = false := by
              intro h hh
              by_cases hph : p h = true
              · exact absurd ⟨hpc, hph⟩ (hchain.1 h hh)
              · rwa [Bool.not_eq_true] at hph
            have hrec := ih true (runOK_tail hok) (fun _ => hhead)
            have heq : collapseRunsAux p rep false (c :: rest) =
                rep :: collapseRunsAux p rep true rest := by
              simp [collapseRunsAux, hpc]
            rw [heq, hrec, ← hcrep]
      · have hpc' : p c = false := by rwa [Bool.not_eq_true] at hpc
        have heq : collapseRunsAux p rep b (c :: rest) =
            c :: collapseRunsAux p rep false rest := by
          simp [collapseRunsAux, hpc']
        rw [heq, ih false (runOK_tail hok) (fun hf => absurd hf (by simp))]

theorem collapseAux_false_head (q : Char → Bool) (rep' : Char) (m : List Char) :
    ∀ h ∈ (collapseRunsAux q rep' false m).head?, h = rep' ∨ h ∈ m.head? := by
  cases m with
  | nil => simp [collapseRunsAux]
  | cons d m' =>
      by_cases hqd : q d = true
      · simp [collapseRunsAux, hqd]
      · have hqd' : q d = false := by rwa [Bool.not_eq_true] at hqd
        simp [collapseRunsAux, hqd']

theorem runOK_collapse_other (p : Char → Bool) (rep : Char)
    (q : Char → Bool) (rep' : Char)
    (h1 : ∀ c, q c = true → p c = false) (h2 : p rep' = false) :
    ∀ (l : List Char) (b : Bool), RunOK p rep l →
      RunOK p rep (collapseRunsAux q rep' b l) := by
  intro l
  induction l with
  | nil =>
      intro b _
      constructor <;> simp [collapseRunsAux]
  | cons c rest ih =>
      intro b hok
      have hok' := runOK_tail hok
      by_cases hqc : q c = true
      · cases b with
        | true =>
            have heq : collapseRunsAux q rep' true (c :: rest) =
                collapseRunsAux q rep' true rest := by
              simp [collapseRunsAux, hqc]
            rw [heq]
            exact ih true hok'
        | false =>
            have heq : collapseRunsAux q rep' false (c :: rest) =
                rep' :: collapseRunsAux q rep' true rest := by
              simp [collapseRunsAux, hqc]
            rw [heq]
            have hr := ih true hok'
            constructor
            · intro x hx hpx
              rcases List.mem_cons.mp hx with rfl | hx'
              · rw [h2] at hpx
                exact absurd hpx (by simp)
              · exact hr.1 x hx' hpx
            · refine List.chain'_cons'.mpr ⟨?_, hr.2⟩
              intro y hy hcon
              rw [h2] at hcon
              exact absurd hcon.1 (by simp)
      · have hqc' : q c = false := by rwa [Bool.not_eq_true] at hqc
        have heq : collapseRunsAux q rep' b (c :: rest) =
            c :: collapseRunsAux q rep' false rest := by
          simp [collapseRunsAux, hqc']
        rw [heq]
        have hr := ih false hok'
        constructor
        · intro x hx hpx
          rcases List.mem_cons.mp hx with rfl | hx'
          · exact hok.1 x (List.mem_cons_self _ _) hpx
          · exact hr.1 x hx' hpx
        · refine List.chain'_cons'.mpr ⟨?_, hr.2⟩
          intro y hy hcon
          rcases collapseAux_false_head q rep' rest y hy with rfl | hy'
          · rw [h2] at hcon
            exact absurd hcon.2 (by simp)
          · exact (List.chain'_cons'.mp hok.2).1 y hy' hcon

theorem chain'_dropWhile {R : Char → Char → Prop} (f : Char → Bool) :
    ∀ {l : List Char}, List.Chain' R l → List.Chain' R (l.dropWhile f) := by
  intro l
  induction l with
  | nil => intro h; exact h
  | cons c rest ih =>
      intro h
      by_cases hf : f c = true
      · rw [List.dropWhile_cons_of_pos hf]
        exact ih (List.chain'_cons'.mp h).2
      · rw [List.dropWhile_cons_of_neg hf]
        exact h

theorem runOK_dropWhile (p : Char → Bool) (rep : Char) (f : Char → Bool)
    {l : List Char} (h : RunOK p rep l) : RunOK p rep (l.dropWhile f) :=
  ⟨fun x hx hpx => h.1 x ((List.dropWhile_sublist f).subset hx) hpx,
    chain'_dropWhile f h.2⟩

theorem runOK_reverse (p : Char → Bool) (rep : Char) {l : List Char}
    (h : RunOK p rep l) : RunOK p rep l.reverse := by
  refine ⟨fun x hx hpx => h.1 x (List.mem_reverse.mp hx) hpx, ?_⟩
  rw [List.chain'_reverse]
  exact h.2.imp fun a b hab => fun hcon => hab ⟨hcon.2, hcon.1⟩

theorem runOK_trim (p : Char → Bool) (rep : Char) {l : List Char}
    (h : RunOK p rep l) : RunOK p rep (trimWS l) := by
  unfold trimWS
  exact runOK_reverse p rep
    (runOK_dropWhile p rep isWS (runOK_reverse p rep (runOK_dropWhile p rep isWS h)))

theorem dropWhile_head_not (f : Char → Bool) :
    ∀ (l : List Char) (h : Char), (l.dropWhile f).head? = some h → f h = false := by
  intro l
  induction l with
  | nil => intro h hh; simp at hh
  | cons c rest ih =>
      intro h hh
      by_cases hf : f c = true
      · rw [List.dropWhile_cons_of_pos hf] at hh
        exact ih h hh
      · rw [List.dropWhile_cons_of_neg hf] at hh
        simp at hh
        subst hh
        rwa [Bool.not_eq_true] at hf

theorem dropWhile_eq_self_of_head (f : Char → Bool) (l : List Char)
    (h : ∀ x ∈ l.head?, f x = false) : l.dropWhile f = l := by
  cases l with
  | nil => rfl
  | cons c rest =>
      have := h c (by simp)
      exact List.dropWhile_cons_of_neg (by simp [this])

theorem getLast?_dropWhile (f : Char → Bool) :
    ∀ l : List Char, l.dropWhile f = [] ∨
      (l.dropWhile f).getLast? = l.getLast? := by
  intro l
  induction l with
  | nil => exact Or.inl rfl
  | cons c rest ih =>
      by_cases hf : f c = true
      · rw [List.dropWhile_cons_of_pos hf]
        cases rest with
        | nil => exact Or.inl rfl
        | cons r rs =>
            rcases ih with hnil | hlast
            · exact Or.inl hnil
            · exact Or.inr (by rw [hlast, List.getLast?_cons_cons])
      · rw [List.dropWhile_cons_of_neg hf]
        exact Or.inr rfl

theorem endsOK_trim (l : List Char) : EndsOK (trimWS l) := by
  unfold trimWS
  constructor
  · intro h hh
    rw [Option.mem_def, List.head?_reverse] at hh
    rcases getLast?_dropWhile isWS (l.dropWhile isWS).reverse with hnil | hlast
    · rw [hnil] at hh
      simp at hh
    · rw [hlast, List.getLast?_reverse] at hh
      exact dropWhile_head_not isWS l h hh
  · intro h hh
    rw [Option.mem_def, List.getLast?_reverse] at hh
    exact dropWhile_head_not isWS (l.dropWhile isWS).reverse h hh

theorem trim_eq_self_of_endsOK {l : List Char} (h : EndsOK l) : trimWS l = l := by
  have hrev : ∀ x ∈ l.reverse.head?, isWS x = false := by
    intro x hx
    rw [Option.mem_def, List.head?_reverse] at hx
    exact h.2 x (Option.mem_def.mpr hx)
  unfold trimWS
  rw [dropWhile_eq_self_of_head isWS l h.1,
    dropWhile_eq_self_of_head isWS l.reverse hrev, List.reverse_reverse]

theorem trim_idem (l : List Char) : trimWS (trimWS l) = trimWS l :=
  trim_eq_self_of_endsOK (endsOK_trim l)

theorem isNL_not_hspace (c : Char) (h : isNL c = true) : isHSpace c = false := by
  unfold isNL at h
  rw [beq_iff_eq] at h
  subst h
  decide

theorem wsCore_idem (cs cn tr : Bool) (l : List Char) :
    wsCore cs cn tr (wsCore cs cn tr l) = wsCore cs cn tr l := by
  have collapse_self_cs : ∀ m, RunOK isHSpace ' ' m →
      collapseRuns isHSpace ' ' m = m :=
    fun m hm => collapseAux_eq_self isHSpace ' ' m false hm
      (fun hf => absurd hf (by simp))
  have collapse_self_cn : ∀ m, RunOK isNL '\n' m →
      collapseRuns isNL '\n' m = m :=
    fun m hm => collapseAux_eq_self isNL '\n' m false hm
      (fun hf => absurd hf (by simp))
  have q1cs : ∀ m, RunOK isHSpace ' ' (collapseRuns isHSpace ' ' m) :=
    fun m => (runOK_collapseAux isHSpace ' ' (by decide) m false).1
  have q1cn : ∀ m, RunOK isNL '\n' (collapseRuns isNL '\n' m) :=
    fun m => (runOK_collapseAux isNL '\n' (by decide) m false).1
  have q3 : ∀ m, RunOK isHSpace ' ' m →
      RunOK isHSpace ' ' (collapseRuns isNL '\n' m) :=
    fun m hm => runOK_collapse_other isHSpace ' ' isNL '\n'
      isNL_not_hspace (by decide) m false hm
  cases cs <;> cases cn <;> cases tr <;> simp only [wsCore, if_true, if_false,
    Bool.false_eq_true, Bool.true_eq_false, ite_true, ite_false, ite_self]
  · exact trim_idem l
  · exact collapse_self_cn _ (q1cn l)
  · rw [collapse_self_cn _ (runOK_trim _ _ (q1cn l))]
    exact trim_idem _
  · exact collapse_self_cs _ (q1cs l)
  · rw [collapse_self_cs _ (runOK_trim _ _ (q1cs l))]
    exact trim_idem _
  · rw [collapse_self_cs _ (q3 _ (q1cs l))]
    exact collapse_self_cn _ (q1cn _)
  · rw [collapse_self_cs _ (runOK_trim _ _ (q3 _ (q1cs l)))]
    rw [collapse_self_cn _ (runOK_trim _ _ (q1cn _))]
    exact trim_idem _

/-- Claim C4: `normalize_whitespace` is idempotent: for every text and the
same option values on both applications, applying it twice equals applying
it once. -/
theorem claim_C4_normalize_whitespace_idempotent (t : String)
    (collapse_spaces collapse_newlines trim : Bool) :
    normalize_whitespace
        (normalize_whitespace t collapse_spaces collapse_newlines trim)
        collapse_spaces collapse_newlines trim =
      normalize_whitespace t collapse_spaces collapse_newlines trim := by
  unfold normalize_whitespace
  rw [toList_asString, wsCore_idem]

/-! ### Case folder lemmas -/

theorem toLowerChar_not_upper (c : Char) : isUpperChar (toLowerChar c) = false := by
  unfold toLowerChar
  cases h : toLowerTable.find? (fun e => e.1 == c) with
  | some e =>
      have he := List.mem_of_find?_eq_some h
      have hall : ∀ x ∈ toLowerTable, isUpperChar x.2 = false := by decide
      exact hall e he
  | none =>
      have hn := List.find?_eq_none.mp h
      by_contra hc
      rw [Bool.not_eq_false] at hc
      unfold isUpperChar at hc
      rw [memB_iff] at hc
      have bridge : ∀ x ∈ upperBase ++ upperAccented,
          ∃ e ∈ toLowerTable, e.1 = x := by decide
      obtain ⟨e, he, hec⟩ := bridge c hc
      exact hn e he (by simp [hec])

theorem lcAux_upper_run : ∀ (run acc l : List Char),
    (∀ c ∈ run, isUpperChar c = true) →
    lcAux acc (run ++ l) = lcAux (run.reverse ++ acc) l := by
  intro run
  induction run with
  | nil => intro acc l _; simp
  | cons c run' ih =>
      intro acc l hall
      have hc : isUpperChar c = true := hall c (List.mem_cons_self _ _)
      have heq : lcAux acc (c :: (run' ++ l)) = lcAux (c :: acc) (run' ++ l) := by
        simp [lcAux, hc]
      rw [List.cons_append, heq,
        ih (c :: acc) l (fun x hx => hall x (List.mem_cons_of_mem _ hx))]
      simp

theorem toLowerChar_eq_self_of_not_upper (c : Char) (h : isUpperChar c = false) :
    toLowerChar c = c := by
  unfold toLowerChar
  cases hf : toLowerTable.find? (fun e => e.1 == c) with
  | none => rfl
  | some e =>
      exfalso
      have he := List.mem_of_find?_eq_some hf
      have hp := List.find?_some hf
      rw [beq_iff_eq] at hp
      have hkeys : ∀ x ∈ toLowerTable, isUpperChar x.1 = true := by decide
      have hu := hkeys e he
      rw [hp] at hu
      rw [hu] at h
      exact absurd h (by simp)

/-- Flushing a completed upper-case run: when the remainder does not start
with another upper-case letter, the scanner emits the run preserved exactly
when it has length at least two and is not followed by a lower-case letter,
and otherwise lower-cased, then restarts. -/
theorem lcAux_flush (run l : List Char)
    (hl : ∀ h ∈ l.head?, isUpperChar h = false) :
    lcAux run.reverse l =
      (if 2 ≤ run.length && l.head?.all (fun d => !(isLowerChar d))
       then run else run.map toLowerChar) ++ lcAux [] l := by
  cases l with
  | nil =>
      show (if 2 ≤ run.reverse.length then run.reverse.reverse
            else (run.reverse.reverse).map toLowerChar) = _
      rw [List.length_reverse, List.reverse_reverse]
      have h0 : lcAux ([] : List Char) ([] : List Char) = [] := by
        simp [lcAux]
      rw [h0, List.append_nil]
      by_cases h2 : 2 ≤ run.length
      · rw [if_pos h2, if_pos (by simp [h2])]
      · rw [if_neg h2, if_neg (by simp [h2])]
  | cons d l' =>
      have hd : isUpperChar d = false := hl d (by simp)
      have heq : lcAux run.reverse (d :: l') =
          (if decide (2 ≤ run.reverse.length) && !(isLowerChar d)
           then run.reverse.reverse
           else (run.reverse.reverse).map toLowerChar) ++ d :: lcAux [] l' := by
        simp [lcAux, hd]
      have heq2 : lcAux [] (d :: l') = d :: lcAux [] l' := by
        simp [lcAux, hd]
      rw [heq, List.length_reverse, List.reverse_reverse, heq2]
      simp only [List.head?_cons, Option.all_some]

/-- The accumulator scanner agrees with the claim-worded specification on
every input (stated with an explicit length bound for the induction). -/
theorem lcAux_eq_lcSpec_bounded :
    ∀ (n : Nat) (l : List Char), l.length ≤ n → lcAux [] l = lcSpec l := by
  intro n
  induction n with
  | zero =>
      intro l hl
      have hnil : l = [] := List.eq_nil_of_length_eq_zero (Nat.le_zero.mp hl)
      subst hnil
      simp [lcAux, lcSpec]
  | succ n ih =>
      intro l hl
      cases l with
      | nil => simp [lcAux, lcSpec]
      | cons c rest =>
          rw [List.length_cons] at hl
          have hrest_le : rest.length ≤ n := Nat.le_of_succ_le_succ hl
          by_cases hu : isUpperChar c = true
          · have hsplit : (c :: rest).takeWhile isUpperChar ++
                (c :: rest).dropWhile isUpperChar = c :: rest :=
              List.takeWhile_append_dropWhile isUpperChar (c :: rest)
            have hdw : (c :: rest).dropWhile isUpperChar =
                rest.dropWhile isUpperChar :=
              List.dropWhile_cons_of_pos hu
            have hafter_head : ∀ h ∈ (rest.dropWhile isUpperChar).head?,
                isUpperChar h = false := by
              intro h hh
              exact dropWhile_head_not isUpperChar rest h (Option.mem_def.mp hh)
            have h1 : lcAux [] (c :: rest) =
                lcAux ((c :: rest).takeWhile isUpperChar).reverse
                  (rest.dropWhile isUpperChar) := by
              conv_lhs => rw [← hsplit]
              rw [lcAux_upper_run _ [] _ (fun x hx => List.mem_takeWhile_imp hx),
                List.append_nil, hdw]
            have hlen : (rest.dropWhile isUpperChar).length ≤ n :=
              le_trans (List.dropWhile_sublist _).length_le hrest_le
            rw [h1, lcAux_flush _ _ hafter_head, ih _ hlen]
            simp only [lcSpec]
            rw [if_pos hu]
          · have hu' : isUpperChar c = false := by rwa [Bool.not_eq_true] at hu
            have heq : lcAux [] (c :: rest) = c :: lcAux [] rest := by
              simp [lcAux, hu']
            rw [heq, ih rest hrest_le]
            simp only [lcSpec]
            rw [if_neg (by simp [hu']), toLowerChar_eq_self_of_not_upper c hu']

theorem lcAux_eq_lcSpec (l : List Char) : lcAux [] l = lcSpec l :=
  lcAux_eq_lcSpec_bounded l.length l (Nat.le_refl _)

/-- Claim C9: with `aggressive = true`, `lowercase` lower-cases the text
unconditionally — it equals the character-wise lower-casing map, and no
upper-case character survives in the result; with `aggressive = false`, for
every input the result equals `lcSpec`, the transcription of the claim's
sentence: the text is lower-cased except that sequences of two or more
consecutive upper-case letters not followed by a lower-case letter are
preserved unchanged. -/
theorem claim_C9_lowercase_modes :
    (∀ (t : String), lowercase t true = (t.toList.map toLowerChar).asString ∧
      ∀ c ∈ (lowercase t true).toList, isUpperChar c = false) ∧
    (∀ (t : String), lowercase t false = (lcSpec t.toList).asString) := by
  refine ⟨fun t => ⟨rfl, ?_⟩, fun t => ?_⟩
  · intro c hc
    unfold lowercase at hc
    rw [if_pos rfl, toList_asString] at hc
    obtain ⟨x, _, rfl⟩ := List.mem_map.mp hc
    exact toLowerChar_not_upper x
  · show (lcAux [] t.toList).asString = _
    rw [lcAux_eq_lcSpec]

theorem claim_C9_witness :
    lowercase "NASA Vola" true = "nasa vola" ∧ isUpperChar 'n' = false ∧
    lowercase "NASA Vola" false = (lcSpec "NASA Vola".toList).asString := by
  refine ⟨?_, ?_, ?_⟩
  · rw [(claim_C9_lowercase_modes.1 "NASA Vola").1]
    decide
  · exact (claim_C9_lowercase_modes.1 "NASA Vola").2 'n' (by decide)
  · exact claim_C9_lowercase_modes.2 "NASA Vola"

/-! ### Pipeline orchestrator: claim C1 -/

/-- Claim C1: for every input text and every pipeline configuration, the
pipeline applies the enabled stages in the fixed order — OCR correction,
Unicode normalization, quote/accent normalization, broken-word handling,
lower-casing, whitespace normalization, sentence splitting — and every
stage whose enable flag is false is a pure pass-through, so the result
equals the composition (`chainStages`) of only the enabled stage functions
applied in that order, followed by the final sentence-splitting stage (or a
single-element pass-through when splitting is disabled). -/
theorem claim_C1_pipeline_composition (correct : String → String) (text : String)
    (f1 f2 f3 f4 f5 f6 f7 : Bool) (u : UnicodeOptions) (s : SplitOptions)
    (b : BrokenOptions) (w : WhitespaceOptions) (q : QuoteOptions) :
    preprocess_pipeline correct text f1 f2 f5 f4 f7 f6 f3 u s b w q =
      (chainStages (stageList correct f1 f2 f3 f4 f5 f6 u q b w) text).bind
        (fun t => if f7 then
            split_sentences t s.method s.language s.keep_line_breaks
          else Except.ok [t]) := by
  cases f1 <;> cases f2 <;> cases f3 <;> cases f4 <;> cases f5 <;> cases f6 <;>
    simp [preprocess_pipeline, chainStages, stageList, except_ok_bind,
      except_bind_assoc]
